import Mathlib

/-!
Verification of the motion-detection / LAN-scan / dir-browser corpus.

The Python sources are shallowly embedded below:
* `scan_local_network` from 102_LAN_full_scan/scan_local_network.py;
* `format_size` from 040_Tkinter_DirBrowser/dirbrowser_commented.py;
* the frame loop of 115_Motion_detection/MotionDetection.py, whose
  image-processing stages delegate to OpenCV library calls
  (createBackgroundSubtractorMOG2, morphologyEx, findContours); those
  library internals are not part of this repository and are modelled
  from the specification's component designs (4.1-4.3).
-/

namespace LanScan

/-- An answer packet as used by the scanner: only the `psrc` (source
protocol/IP address) and `hwsrc` (source hardware/MAC address) fields of
the received ARP reply are read by the code. -/
structure Packet where
  psrc : String
  hwsrc : String
  deriving DecidableEq, Repr

/-- A device record: the Python code builds the dict
`{'ip': received.psrc, 'mac': received.hwsrc}`, a dictionary with exactly
the two keys `ip` and `mac`; it is modelled as a structure with exactly
those two fields. -/
structure Device where
  ip : String
  mac : String
  deriving DecidableEq, Repr

/-- The function `scan_local_network`, embedded over the answered list returned by
`srp(...)[0]`: the code loops `for sent, received in result` and appends
`{'ip': received.psrc, 'mac': received.hwsrc}` to an initially empty
`devices` list, then returns it. -/
def scan_local_network (result : List (Packet × Packet)) : List Device :=
  result.foldl (fun devices sr => devices ++ [⟨sr.2.psrc, sr.2.hwsrc⟩]) []

theorem scan_foldl_append (result : List (Packet × Packet)) (acc : List Device) :
    result.foldl (fun devices sr => devices ++ [⟨sr.2.psrc, sr.2.hwsrc⟩]) acc
      = acc ++ result.map (fun sr => ⟨sr.2.psrc, sr.2.hwsrc⟩) := by
  induction result generalizing acc with
  | nil => simp
  | cons hd tl ih => simp [List.foldl_cons, ih]

/-- C9: for every answered list, `scan_local_network` returns one device
record per (sent, received) pair, in the same order, each holding exactly
the `ip` and `mac` fields taken from the corresponding received packet's
`psrc` and `hwsrc`. -/
theorem scan_local_network_spec (result : List (Packet × Packet)) :
    (scan_local_network result).length = result.length ∧
      scan_local_network result
        = result.map fun sr => { ip := sr.2.psrc, mac := sr.2.hwsrc } := by
  have h := scan_foldl_append result []
  rw [scan_local_network, h, List.nil_append]
  exact ⟨List.length_map result _, rfl⟩

end LanScan

namespace DirBrowser

/-- The unit labels of `format_size`. -/
def units : List String := ["bytes", "KB", "MB", "GB", "TB"]

/-- The `while n >= 1024 and i < len(units) - 1` loop of `format_size`:
repeatedly divide the running value by 1024 and bump the unit index.
Terminates because the index strictly increases towards the bound. -/
def sizeLoop (n : ℚ) (i : ℕ) : ℚ × ℕ :=
  if 1024 ≤ n ∧ i < units.length - 1 then
    sizeLoop (n / 1024) (i + 1)
  else
    (n, i)
termination_by units.length - 1 - i
decreasing_by omega

/-- Python's `int()` truncation towards zero on a rational value. -/
def truncInt (q : ℚ) : ℤ :=
  if 0 ≤ q then ⌊q⌋ else ⌈q⌉

/-- One-decimal rendering used for the one-decimal float format branch: the value
rounded to tenths, printed with one digit after the point.  (Python
formats the nearest binary double; the claims under check do not depend
on the exact digits of this branch.) -/
def oneDecimal (q : ℚ) : String :=
  let t : ℤ := round (q * 10)
  toString (t / 10) ++ "." ++ toString (t % 10).natAbs

/-- The function `format_size`, embedded with `none` standing for an input on which
`float(num_bytes)` raises (the `except` branch returns the em-dash
string), and `some v` for an input whose float conversion yields `v`. -/
def format_size (x : Option ℚ) : String :=
  match x with
  | none => "—"
  | some v =>
    let r := sizeLoop v 0
    if r.2 = 0 then
      toString (truncInt r.1) ++ " " ++ units.getD r.2 default
    else
      oneDecimal r.1 ++ " " ++ units.getD r.2 default

theorem sizeLoop_index_le (n : ℚ) (i : ℕ) (hi : i ≤ units.length - 1) :
    (sizeLoop n i).2 ≤ units.length - 1 := by
  unfold sizeLoop
  split
  · next h => exact sizeLoop_index_le (n / 1024) (i + 1) (by omega)
  · simpa using hi
termination_by units.length - 1 - i
decreasing_by omega

theorem sizeLoop_small (n : ℚ) (i : ℕ) (h : n < 1024) :
    sizeLoop n i = (n, i) := by
  unfold sizeLoop
  rw [if_neg]
  rintro ⟨h1024, -⟩
  exact absurd h (not_lt.mpr h1024)

/-- C10: `format_size` is total — the unit-scaling loop stops with a unit
index of at most `len(units) - 1 = 4` (so it runs at most 4 times from
index 0), the non-numeric branch yields the em-dash string, and every
numeric input below 1024 is rendered with the unit "bytes". -/
theorem format_size_total :
    (∀ v : ℚ, (sizeLoop v 0).2 ≤ 4)
      ∧ format_size none = "—"
      ∧ (∀ v : ℚ, v < 1024 → ∃ s, format_size (some v) = s ++ "bytes") := by
  refine ⟨fun v => sizeLoop_index_le v 0 (by norm_num [units]), rfl, ?_⟩
  intro v hv
  refine ⟨toString (truncInt v) ++ " ", ?_⟩
  simp only [format_size, sizeLoop_small v 0 hv]
  rfl

theorem format_size_total_witness :
    (5 : ℚ) < 1024 ∧ ∃ s, format_size (some 5) = s ++ "bytes" :=
  ⟨by norm_num, format_size_total.2.2 5 (by norm_num)⟩

end DirBrowser

namespace Motion

/-- A binary foreground mask: `w × h` grid, `fg y x` holds when the pixel
at row `y`, column `x` is foreground (value 255 in the OpenCV mask). -/
structure Mask where
  w : ℕ
  h : ℕ
  fg : ℤ → ℤ → Bool

/-- Whether `(y, x)` lies inside the grid of `m`. -/
def inGrid (m : Mask) (y x : ℤ) : Prop :=
  0 ≤ y ∧ y < (m.h : ℤ) ∧ 0 ≤ x ∧ x < (m.w : ℤ)

instance (m : Mask) (y x : ℤ) : Decidable (inGrid m y x) := by
  unfold inGrid; infer_instance

/-- Pixel read with a border value `d` outside the grid (OpenCV's
morphology uses a constant border: foreground for erosion, background
for dilation, so the border never creates or erodes content). -/
def atB (m : Mask) (d : Bool) (y x : ℤ) : Bool :=
  if inGrid m y x then m.fg y x else d

/-- Modelled from the spec: the 3×3 elliptical structuring element built
by `cv2.getStructuringElement(cv2.MORPH_ELLIPSE, (3, 3))`, which is the
cross `[[0,1,0],[1,1,1],[0,1,0]]`, given as (row, column) offsets from
the anchor at the centre. -/
def crossSE : List (ℤ × ℤ) := [(0, 0), (-1, 0), (1, 0), (0, -1), (0, 1)]

/-- Modelled from the spec: binary erosion with the 3×3 elliptical
structuring element — a pixel survives iff its whole structuring-element
neighbourhood is foreground (out-of-grid neighbours count as foreground,
OpenCV's erosion border). -/
def erodeMask (m : Mask) : Mask :=
  ⟨m.w, m.h, fun y x => crossSE.all fun d => atB m true (y + d.1) (x + d.2)⟩

/-- Modelled from the spec: binary dilation with the 3×3 elliptical
structuring element — a pixel is set iff some structuring-element
neighbour is foreground (out-of-grid neighbours count as background). -/
def dilateMask (m : Mask) : Mask :=
  ⟨m.w, m.h, fun y x => crossSE.any fun d => atB m false (y + d.1) (x + d.2)⟩

/-- Modelled from the spec: the NoiseFilter stage
`cv2.morphologyEx(fg_mask, cv2.MORPH_OPEN, ...)` — morphological
opening, i.e. erosion followed by dilation. -/
def noiseFilter (m : Mask) : Mask := dilateMask (erodeMask m)

/-- Number of foreground pixels inside the grid. -/
def area (m : Mask) : ℕ :=
  ((Finset.range m.h ×ˢ Finset.range m.w).filter
    (fun p => m.fg (p.1 : ℤ) (p.2 : ℤ) = true)).card

theorem opening_le_pointwise (m : Mask) (y x : ℤ) (hin : inGrid m y x)
    (hop : (noiseFilter m).fg y x = true) : m.fg y x = true := by
  simp only [noiseFilter, dilateMask, erodeMask, List.any_eq_true] at hop
  obtain ⟨d, hd, hat⟩ := hop
  rw [atB] at hat
  split at hat
  case isFalse => exact absurd hat (by simp)
  case isTrue hdin =>
    simp only [List.all_eq_true] at hat
    have hsym : (-d.1, -d.2) ∈ crossSE := by
      fin_cases hd <;> simp [crossSE]
    have := hat _ hsym
    simp only [atB] at this
    rw [if_pos] at this
    · convert this using 2 <;> ring
    · convert hin using 2 <;> ring

/-- The opening preserves the grid dimensions. -/
theorem noiseFilter_dims (m : Mask) :
    (noiseFilter m).w = m.w ∧ (noiseFilter m).h = m.h := ⟨rfl, rfl⟩

/-- C2: for every foreground mask, the number of foreground pixels in the
NoiseFilter's output (morphological opening: erosion then dilation with
the 3×3 elliptical structuring element) is at most the number of
foreground pixels in its input. -/
theorem noiseFilter_area_le (m : Mask) : area (noiseFilter m) ≤ area m := by
  apply Finset.card_le_card
  intro p hp
  simp only [Finset.mem_filter, Finset.mem_product, Finset.mem_range] at hp ⊢
  obtain ⟨⟨hy, hx⟩, hfg⟩ := hp
  refine ⟨⟨hy, hx⟩, ?_⟩
  exact opening_le_pointwise m _ _
    ⟨Int.ofNat_nonneg _, by exact_mod_cast hy, Int.ofNat_nonneg _, by exact_mod_cast hx⟩ hfg

/-- One Gaussian component of the per-pixel mixture: mean, variance and
mixing weight. -/
structure Component where
  mean : ℚ
  var : ℚ
  weight : ℚ
  deriving DecidableEq, Repr

/-- A video frame: `w × h` grid of (single-channel) pixel samples. -/
structure Frame where
  w : ℕ
  h : ℕ
  px : ℤ → ℤ → ℚ

/-- Whether `(y, x)` lies inside the grid of frame `f`. -/
def inFrame (f : Frame) (y x : ℤ) : Prop :=
  0 ≤ y ∧ y < (f.h : ℤ) ∧ 0 ≤ x ∧ x < (f.w : ℤ)

instance (f : Frame) (y x : ℤ) : Decidable (inFrame f y x) := by
  unfold inFrame; infer_instance

/-- The mutable BackgroundModel state: per pixel, a list of K Gaussian
components, updated in place every frame. -/
structure BGState where
  comps : ℤ → ℤ → List Component

/-- The σ-multiplier of the match threshold (spec default 2.5). -/
def matchThr : ℚ := 5 / 2

/-- The background weight fraction (spec default 0.7). -/
def bgFrac : ℚ := 7 / 10

/-- The numeric floor on variances (spec: "variance never reaches zero"). -/
def varFloor : ℚ := 1 / 100

/-- Initial variance of a freshly seeded component. -/
def varInit : ℚ := 15

/-- Whether sample `x` matches component `c`: squared distance below the
σ-multiplier threshold times the variance (Mahalanobis distance < 2.5σ). -/
def compMatches (x : ℚ) (c : Component) : Bool :=
  decide ((x - c.mean) ^ 2 < matchThr ^ 2 * c.var)

/-- Total mixing weight of a component list. -/
def sumW (cs : List Component) : ℚ := (cs.map Component.weight).sum

/-- Modelled from the spec: scanning components "ordered by weight
descending", the first matching component is the matching component of
maximal weight; returns its index in the stored list together with its
weight (earlier index wins ties). -/
def bestMatch (x : ℚ) : List Component → Option (ℕ × ℚ)
  | [] => none
  | c :: cs =>
    match bestMatch x cs with
    | none => if compMatches x c then some (0, c.weight) else none
    | some (j, wj) =>
      if compMatches x c ∧ wj ≤ c.weight then some (0, c.weight)
      else some (j + 1, wj)

/-- Index (and weight) of the least-probable — minimal-weight —
component; earlier index wins ties. -/
def minWeight : List Component → Option (ℕ × ℚ)
  | [] => none
  | c :: cs =>
    match minWeight cs with
    | none => some (0, c.weight)
    | some (j, wj) =>
      if c.weight ≤ wj then some (0, c.weight) else some (j + 1, wj)

/-- Weight decay of an unmatched component: `w ← (1-α)·w`. -/
def decay (α : ℚ) (c : Component) : Component :=
  { c with weight := (1 - α) * c.weight }

/-- Exponential-moving-average update of the matched component with rate
`α`; the variance floor keeps the variance away from zero. -/
def emaUpdate (α x : ℚ) (c : Component) : Component :=
  { mean := (1 - α) * c.mean + α * x
    var := max varFloor ((1 - α) * c.var + α * (x - c.mean) ^ 2)
    weight := (1 - α) * c.weight + α }

/-- Update the component at index `j` (the match) with the EMA rule and
decay every other component's weight. -/
def updComps (α x : ℚ) : List Component → ℕ → List Component
  | [], _ => []
  | c :: cs, 0 => emaUpdate α x c :: cs.map (decay α)
  | c :: cs, n + 1 => decay α c :: updComps α x cs n

/-- A fresh component seeded at the observed sample (initial weight α,
initial variance `varInit`). -/
def newComp (α x : ℚ) : Component := ⟨x, varInit, α⟩

/-- Replace the component at index `j` by a fresh one seeded at `x`. -/
def replaceComp (α x : ℚ) : List Component → ℕ → List Component
  | [], _ => []
  | _ :: cs, 0 => newComp α x :: cs
  | c :: cs, n + 1 => c :: replaceComp α x cs n

/-- Renormalize the weights to sum to 1 ("renormalize weights to sum to
1 after every update"). -/
def renormalize (cs : List Component) : List Component :=
  cs.map fun c => { c with weight := c.weight / sumW cs }

/-- Modelled from the spec (4.1): per-pixel model update of
`createBackgroundSubtractorMOG2().apply` — if some component matches, EMA
update it and decay the rest; otherwise replace the least-probable
component by a fresh one seeded at the sample; renormalize afterwards. -/
def updatePixel (α x : ℚ) (cs : List Component) : List Component :=
  renormalize
    (match bestMatch x cs with
     | some (j, _) => updComps α x cs j
     | none =>
       match minWeight cs with
       | some (j, _) => replaceComp α x cs j
       | none => [])

/-- Modelled from the spec (4.1): a pixel is background iff the sample
matched a component lying in the minimal descending-weight prefix that
accumulates at least `bgFrac` of the total weight — equivalently, the
total weight of components strictly heavier than the matched one is
still below `bgFrac` of the total. -/
def classifyBackground (x : ℚ) (cs : List Component) : Bool :=
  match bestMatch x cs with
  | none => false
  | some (_, wj) =>
    decide ((((cs.filter fun c => wj < c.weight).map Component.weight).sum)
              < bgFrac * sumW cs)

/-- Modelled from the spec (4.1): `BackgroundModel.apply` — update every
in-grid pixel's mixture and classify it, returning the new state and a
foreground mask of the frame's dimensions. -/
def bgApply (α : ℚ) (s : BGState) (f : Frame) : BGState × Mask :=
  ( ⟨fun y x =>
      if inFrame f y x then updatePixel α (f.px y x) (s.comps y x)
      else s.comps y x⟩,
    ⟨f.w, f.h, fun y x =>
      if inFrame f y x then !classifyBackground (f.px y x) (s.comps y x)
      else false⟩ )

theorem sumW_nil : sumW [] = 0 := rfl

theorem sumW_cons (c : Component) (cs : List Component) :
    sumW (c :: cs) = c.weight + sumW cs := by
  simp [sumW]

theorem sumW_nonneg (cs : List Component) (h : ∀ c ∈ cs, 0 ≤ c.weight) :
    0 ≤ sumW cs := by
  induction cs with
  | nil => simp [sumW_nil]
  | cons c cs ih =>
    rw [sumW_cons]
    have h1 := h c (by simp)
    have h2 := ih fun d hd => h d (by simp [hd])
    linarith

theorem bestMatch_lt_length (x : ℚ) (cs : List Component) (j : ℕ) (w : ℚ)
    (h : bestMatch x cs = some (j, w)) : j < cs.length := by
  induction cs generalizing j w with
  | nil => simp [bestMatch] at h
  | cons c cs ih =>
    rw [bestMatch] at h
    rcases hm : bestMatch x cs with - | ⟨j', wj⟩ <;> rw [hm] at h <;> dsimp only at h
    · by_cases hc : compMatches x c = true
      · rw [if_pos hc] at h
        obtain ⟨rfl, -⟩ := Prod.mk.injEq 0 c.weight j w ▸ Option.some.inj h
        simp
      · rw [if_neg hc] at h
        exact absurd h (by simp)
    · by_cases hc : compMatches x c = true ∧ wj ≤ c.weight
      · rw [if_pos hc] at h
        obtain ⟨rfl, -⟩ := Prod.mk.injEq 0 c.weight j w ▸ Option.some.inj h
        simp
      · rw [if_neg hc] at h
        obtain ⟨rfl, -⟩ := Prod.mk.injEq (j' + 1) wj j w ▸ Option.some.inj h
        have := ih j' wj hm
        simpa using Nat.succ_lt_succ this

theorem minWeight_lt_length (cs : List Component) (j : ℕ) (w : ℚ)
    (h : minWeight cs = some (j, w)) : j < cs.length := by
  induction cs generalizing j w with
  | nil => simp [minWeight] at h
  | cons c cs ih =>
    rw [minWeight] at h
    rcases hm : minWeight cs with - | ⟨j', wj⟩ <;> rw [hm] at h <;> dsimp only at h
    · obtain ⟨rfl, -⟩ := Prod.mk.injEq 0 c.weight j w ▸ Option.some.inj h
      simp
    · by_cases hc : c.weight ≤ wj
      · rw [if_pos hc] at h
        obtain ⟨rfl, -⟩ := Prod.mk.injEq 0 c.weight j w ▸ Option.some.inj h
        simp
      · rw [if_neg hc] at h
        obtain ⟨rfl, -⟩ := Prod.mk.injEq (j' + 1) wj j w ▸ Option.some.inj h
        have := ih j' wj hm
        simpa using Nat.succ_lt_succ this

theorem minWeight_cons_ne_none (c : Component) (cs : List Component) :
    minWeight (c :: cs) ≠ none := by
  rw [minWeight]
  rcases minWeight cs with - | ⟨j', wj⟩ <;> dsimp only
  · simp
  · by_cases hc : c.weight ≤ wj
    · rw [if_pos hc]; simp
    · rw [if_neg hc]; simp

theorem sumW_map_decay (α : ℚ) (cs : List Component) :
    sumW (cs.map (decay α)) = (1 - α) * sumW cs := by
  induction cs with
  | nil => simp [sumW_nil]
  | cons c cs ih =>
    simp only [List.map_cons, sumW_cons, ih, decay]
    ring

theorem sumW_updComps (α x : ℚ) (cs : List Component) (j : ℕ)
    (hj : j < cs.length) :
    sumW (updComps α x cs j) = (1 - α) * sumW cs + α := by
  induction cs generalizing j with
  | nil => simp at hj
  | cons c cs ih =>
    cases j with
    | zero =>
      simp only [updComps, sumW_cons, emaUpdate, sumW_map_decay]
      ring
    | succ n =>
      have hn : n < cs.length := by simpa using hj
      simp only [updComps, sumW_cons, decay, ih n hn]
      ring

theorem sumW_replaceComp_ge (α x : ℚ) (cs : List Component) (j : ℕ)
    (hj : j < cs.length) (hw : ∀ c ∈ cs, 0 ≤ c.weight) :
    α ≤ sumW (replaceComp α x cs j) := by
  induction cs generalizing j with
  | nil => simp at hj
  | cons c cs ih =>
    cases j with
    | zero =>
      simp only [replaceComp, sumW_cons, newComp]
      have := sumW_nonneg cs fun d hd => hw d (by simp [hd])
      linarith
    | succ n =>
      have hn : n < cs.length := by simpa using hj
      simp only [replaceComp, sumW_cons]
      have h1 := hw c (by simp)
      have h2 := ih n hn fun d hd => hw d (by simp [hd])
      linarith

theorem sumW_map_div (s : ℚ) (cs : List Component) :
    sumW (cs.map fun c => { c with weight := c.weight / s }) = sumW cs / s := by
  induction cs with
  | nil => simp [sumW_nil]
  | cons c cs ih =>
    simp only [List.map_cons, sumW_cons, ih]
    rw [add_div]

theorem sumW_renormalize (cs : List Component) (h : sumW cs ≠ 0) :
    sumW (renormalize cs) = 1 := by
  rw [renormalize, sumW_map_div, div_self h]

theorem sumW_updatePixel (α x : ℚ) (cs : List Component) (hne : cs ≠ [])
    (hα : 0 < α) (hα1 : α ≤ 1) (hw : ∀ c ∈ cs, 0 ≤ c.weight) :
    sumW (updatePixel α x cs) = 1 := by
  rw [updatePixel]
  rcases hbm : bestMatch x cs with - | ⟨j, wj⟩
  · cases cs with
    | nil => exact absurd rfl hne
    | cons c cs' =>
      rcases hmw : minWeight (c :: cs') with - | ⟨j, wj⟩
      · exact absurd hmw (minWeight_cons_ne_none c cs')
      · apply sumW_renormalize
        have hge := sumW_replaceComp_ge α x (c :: cs') j
          (minWeight_lt_length _ j wj hmw) hw
        intro h0
        rw [h0] at hge
        linarith
  · apply sumW_renormalize
    rw [sumW_updComps α x cs j (bestMatch_lt_length x cs j wj hbm)]
    have hS := sumW_nonneg cs hw
    have h1 : 0 ≤ (1 - α) * sumW cs := mul_nonneg (by linarith) hS
    intro h0
    linarith

/-- A well-formed BackgroundModel state: every pixel has at least one
component (K ≥ 1) and all mixing weights are nonnegative. -/
def validState (s : BGState) : Prop :=
  ∀ y x : ℤ, s.comps y x ≠ [] ∧ ∀ c ∈ s.comps y x, 0 ≤ c.weight

/-- C3: the foreground mask returned by `BackgroundModel.apply` has
exactly the width and height of the input frame. -/
theorem bgApply_mask_dims (α : ℚ) (s : BGState) (f : Frame) :
    ((bgApply α s f).2).w = f.w ∧ ((bgApply α s f).2).h = f.h :=
  ⟨rfl, rfl⟩

/-- C4: after a call to `BackgroundModel.apply` with learning rate
`α ∈ (0,1]` on a well-formed state, every pixel's component weights sum
to 1 within the 1e-6 tolerance (in this exact-rational model the sum is
exactly 1). -/
theorem bgApply_weights_sum_one (α : ℚ) (s : BGState) (f : Frame)
    (hα : 0 < α) (hα1 : α ≤ 1) (hs : validState s) (y x : ℤ)
    (hin : inFrame f y x) :
    |sumW (((bgApply α s f).1).comps y x) - 1| ≤ 1 / 1000000 := by
  have h := sumW_updatePixel α (f.px y x) (s.comps y x)
    (hs y x).1 hα hα1 (hs y x).2
  simp only [bgApply, if_pos hin, h]
  norm_num

/-- A one-pixel demonstration state with a single unit-weight component. -/
def demoState : BGState := ⟨fun _ _ => [⟨0, 15, 1⟩]⟩

/-- A one-pixel all-zero demonstration frame. -/
def demoFrame : Frame := ⟨1, 1, fun _ _ => 0⟩

theorem bgApply_weights_sum_one_witness :
    (0 : ℚ) < 1 / 2 ∧
      |sumW (((bgApply (1 / 2) demoState demoFrame).1).comps 0 0) - 1|
        ≤ 1 / 1000000 :=
  ⟨by norm_num,
   bgApply_weights_sum_one (1 / 2) demoState demoFrame (by norm_num)
     (by norm_num)
     (fun y x => ⟨by simp [demoState], by
       intro c hc
       simp only [demoState] at hc
       rcases List.mem_singleton.mp hc with rfl
       norm_num⟩)
     0 0 (by constructor <;> simp [demoFrame])⟩

/-- A detected region: the axis-aligned bounding rectangle `(x, y, w, h)`
(`x` the leftmost column, `y` the topmost row) together with the
originating point set, as (row, column) pairs. -/
structure Region where
  x : ℤ
  y : ℤ
  w : ℤ
  h : ℤ
  points : List (ℤ × ℤ)
  deriving DecidableEq, Repr

/-- The set of foreground pixels of a mask, as (row, column) pairs. -/
def fgSet (m : Mask) : Finset (ℤ × ℤ) :=
  (Finset.range m.h ×ˢ Finset.range m.w).filter
      (fun p => m.fg (p.1 : ℤ) (p.2 : ℤ) = true)
    |>.image fun p => ((p.1 : ℤ), (p.2 : ℤ))

/-- 8-adjacency of two distinct pixels: both coordinates differ by at
most one. -/
def adj8 (p q : ℤ × ℤ) : Prop :=
  p ≠ q ∧ |p.1 - q.1| ≤ 1 ∧ |p.2 - q.2| ≤ 1

instance (p q : ℤ × ℤ) : Decidable (adj8 p q) := by
  unfold adj8; infer_instance

theorem adj8_symm {p q : ℤ × ℤ} (h : adj8 p q) : adj8 q p := by
  obtain ⟨hne, h1, h2⟩ := h
  exact ⟨fun e => hne e.symm, by rw [abs_sub_comm]; exact h1,
    by rw [abs_sub_comm]; exact h2⟩

/-- One step between foreground pixels of `m`: both are foreground and
8-adjacent.  Connectivity is the reflexive-transitive closure of this. -/
def step (m : Mask) (p q : ℤ × ℤ) : Prop :=
  p ∈ fgSet m ∧ q ∈ fgSet m ∧ adj8 p q

/-- One flood-fill expansion: add every foreground pixel 8-adjacent to
the current set. -/
def expand (m : Mask) (S : Finset (ℤ × ℤ)) : Finset (ℤ × ℤ) :=
  S ∪ (fgSet m).filter fun q => ∃ p ∈ S, adj8 p q

/-- Iterated flood-fill expansion, `n` rounds from the seed pixel `p`. -/
def compIter (m : Mask) (p : ℤ × ℤ) : ℕ → Finset (ℤ × ℤ)
  | 0 => {p}
  | n + 1 => expand m (compIter m p n)

/-- Modelled from the spec (9: "an explicit flood-fill … pass over the
mask"): the 8-connected component of the seed pixel `p`, obtained by
saturating the expansion — `card (fgSet m)` rounds always reach the
fixpoint. -/
def component (m : Mask) (p : ℤ × ℤ) : Finset (ℤ × ℤ) :=
  compIter m p (fgSet m).card

/-- Row-major (lexicographic) order used to pick one canonical seed per
component. -/
def lexLe (p q : ℤ × ℤ) : Prop :=
  p.1 < q.1 ∨ (p.1 = q.1 ∧ p.2 ≤ q.2)

instance (p q : ℤ × ℤ) : Decidable (lexLe p q) := by
  unfold lexLe; infer_instance

/-- Whether `p` is the canonical (row-major first) pixel of its
component. -/
def canonical (m : Mask) (p : ℤ × ℤ) : Prop :=
  ∀ q ∈ component m p, lexLe p q

instance (m : Mask) (p : ℤ × ℤ) : Decidable (canonical m p) := by
  unfold canonical; infer_instance

/-- Bounding rectangle of a point list seeded at `p`: `x`/`y` are the
minimum column/row, `w`/`h` extend to the maximum column/row inclusive
(`cv2.boundingRect` semantics). -/
def rectOf (p : ℤ × ℤ) (pts : List (ℤ × ℤ)) : Region :=
  let y0 := pts.foldl (fun a q => min a q.1) p.1
  let x0 := pts.foldl (fun a q => min a q.2) p.2
  let y1 := pts.foldl (fun a q => max a q.1) p.1
  let x1 := pts.foldl (fun a q => max a q.2) p.2
  ⟨x0, y0, x1 - x0 + 1, y1 - y0 + 1, pts⟩

/-- Row-major enumeration of the foreground pixels of a mask. -/
def fgList (m : Mask) : List (ℤ × ℤ) :=
  (List.range m.h).flatMap fun (y : ℕ) =>
    (List.range m.w).filterMap fun (x : ℕ) =>
      if m.fg (y : ℤ) (x : ℤ) then some ((y : ℤ), (x : ℤ)) else none

/-- Modelled from the spec (4.3): the RegionExtractor stage
`cv2.findContours(..., cv2.RETR_EXTERNAL, ...)` + `cv2.boundingRect`,
reimplemented as the mandated flood-fill pass: one Region per
8-connected foreground component (emitted at its row-major-first pixel,
so holes yield nothing), with its bounding rectangle. -/
def extract (m : Mask) : List Region :=
  (fgList m).filterMap fun p =>
    if canonical m p then
      some (rectOf p ((fgList m).filter fun q => decide (q ∈ component m p)))
    else none

/-- Whether the rectangle `(x, y, w, h)` contains the (row, column) point `q`. -/
def rectContains (r : Region) (q : ℤ × ℤ) : Prop :=
  r.x ≤ q.2 ∧ q.2 < r.x + r.w ∧ r.y ≤ q.1 ∧ q.1 < r.y + r.h

theorem compIter_subset_fg (m : Mask) (p : ℤ × ℤ) (hp : p ∈ fgSet m) :
    ∀ n, compIter m p n ⊆ fgSet m := by
  intro n
  induction n with
  | zero =>
    intro q hq
    rw [compIter, Finset.mem_singleton] at hq
    exact hq ▸ hp
  | succ k ih =>
    rw [compIter, expand]
    exact Finset.union_subset ih (Finset.filter_subset _ _)

theorem subset_expand (m : Mask) (S : Finset (ℤ × ℤ)) : S ⊆ expand m S :=
  Finset.subset_union_left

theorem compIter_mono (m : Mask) (p : ℤ × ℤ) {a b : ℕ} (hab : a ≤ b) :
    compIter m p a ⊆ compIter m p b := by
  induction b with
  | zero =>
    have : a = 0 := Nat.le_zero.mp hab
    exact this ▸ le_refl _
  | succ k ih =>
    rcases Nat.lt_or_ge a (k + 1) with h | h
    · exact (ih (Nat.lt_succ_iff.mp h)).trans (subset_expand m _)
    · have : a = k + 1 := le_antisymm hab h
      exact this ▸ le_refl _

theorem mem_compIter_reach (m : Mask) (p : ℤ × ℤ) (hp : p ∈ fgSet m) :
    ∀ n q, q ∈ compIter m p n → Relation.ReflTransGen (step m) p q := by
  intro n
  induction n with
  | zero =>
    intro q hq
    rw [compIter, Finset.mem_singleton] at hq
    exact hq ▸ Relation.ReflTransGen.refl
  | succ k ih =>
    intro q hq
    rw [compIter, expand, Finset.mem_union] at hq
    rcases hq with hq | hq
    · exact ih q hq
    · rw [Finset.mem_filter] at hq
      obtain ⟨hqfg, r, hrS, hadj⟩ := hq
      have hrfg : r ∈ fgSet m := compIter_subset_fg m p hp k hrS
      exact Relation.ReflTransGen.tail (ih r hrS) ⟨hrfg, hqfg, hadj⟩

theorem expand_fixpoint_closed (m : Mask) (S : Finset (ℤ × ℤ))
    (hfix : expand m S = S) {a b : ℤ × ℤ}
    (h : Relation.ReflTransGen (step m) a b) (ha : a ∈ S) : b ∈ S := by
  induction h with
  | refl => exact ha
  | tail hab hstep ih =>
    rw [← hfix, expand, Finset.mem_union]
    right
    rw [Finset.mem_filter]
    exact ⟨hstep.2.1, _, ih, hstep.2.2⟩

theorem compIter_card_grow (m : Mask) (p : ℤ × ℤ) (n : ℕ)
    (h : ∀ k, k < n → compIter m p (k + 1) ≠ compIter m p k) :
    n + 1 ≤ (compIter m p n).card := by
  induction n with
  | zero => simp [compIter]
  | succ k ih =>
    have hk := ih fun j hj => h j (Nat.lt_succ_of_lt hj)
    have hne := h k (Nat.lt_succ_self k)
    have hss : compIter m p k ⊂ compIter m p (k + 1) :=
      Finset.ssubset_iff_subset_ne.mpr ⟨compIter_mono m p (Nat.le_succ k), hne.symm⟩
    have := Finset.card_lt_card hss
    omega

theorem compIter_stable (m : Mask) (p : ℤ × ℤ) (k : ℕ)
    (h : compIter m p (k + 1) = compIter m p k) :
    ∀ j, k ≤ j → compIter m p j = compIter m p k := by
  intro j hj
  induction j with
  | zero =>
    have : k = 0 := Nat.le_zero.mp hj
    rw [this]
  | succ i ih =>
    rcases Nat.lt_or_ge k (i + 1) with hlt | hge
    · have hik : k ≤ i := Nat.lt_succ_iff.mp hlt
      have hi := ih hik
      calc compIter m p (i + 1) = expand m (compIter m p i) := rfl
        _ = expand m (compIter m p k) := by rw [hi]
        _ = compIter m p (k + 1) := rfl
        _ = compIter m p k := h
    · have : k = i + 1 := le_antisymm hj hge
      rw [this]

theorem component_fixpoint (m : Mask) (p : ℤ × ℤ) (hp : p ∈ fgSet m) :
    expand m (component m p) = component m p := by
  set N := (fgSet m).card with hN
  by_cases hstep : ∃ k, k < N ∧ compIter m p (k + 1) = compIter m p k
  · obtain ⟨k, hkN, hfix⟩ := hstep
    have h1 : compIter m p N = compIter m p k :=
      compIter_stable m p k hfix N (Nat.le_of_lt hkN)
    have h2 : compIter m p (N + 1) = compIter m p k :=
      compIter_stable m p k hfix (N + 1) (by omega)
    show compIter m p (N + 1) = compIter m p N
    rw [h1, h2]
  · exfalso
    push_neg at hstep
    have hgrow := compIter_card_grow m p N fun k hk => hstep k hk
    have hsub := compIter_subset_fg m p hp N
    have := Finset.card_le_card hsub
    omega

theorem mem_component_iff (m : Mask) (p : ℤ × ℤ) (hp : p ∈ fgSet m)
    (q : ℤ × ℤ) :
    q ∈ component m p ↔ Relation.ReflTransGen (step m) p q := by
  constructor
  · exact mem_compIter_reach m p hp _ q
  · intro h
    have hp0 : p ∈ component m p := by
      have h0 : p ∈ compIter m p 0 := by rw [compIter]; exact Finset.mem_singleton_self p
      exact compIter_mono m p (Nat.zero_le _) h0
    exact expand_fixpoint_closed m (component m p) (component_fixpoint m p hp) h hp0

theorem step_symm (m : Mask) {p q : ℤ × ℤ} (h : step m p q) : step m q p :=
  ⟨h.2.1, h.1, adj8_symm h.2.2⟩

theorem reach_symm (m : Mask) {p q : ℤ × ℤ}
    (h : Relation.ReflTransGen (step m) p q) :
    Relation.ReflTransGen (step m) q p := by
  induction h with
  | refl => exact Relation.ReflTransGen.refl
  | tail hab hstep ih =>
    exact Relation.ReflTransGen.trans
      (Relation.ReflTransGen.single (step_symm m hstep)) ih

theorem mem_self_component (m : Mask) (p : ℤ × ℤ) : p ∈ component m p := by
  have h0 : p ∈ compIter m p 0 := by rw [compIter]; exact Finset.mem_singleton_self p
  exact compIter_mono m p (Nat.zero_le _) h0

theorem component_subset_fg (m : Mask) (p : ℤ × ℤ) (hp : p ∈ fgSet m) :
    component m p ⊆ fgSet m :=
  compIter_subset_fg m p hp _

theorem component_eq_of_mem (m : Mask) (p q : ℤ × ℤ) (hp : p ∈ fgSet m)
    (hq : q ∈ component m p) : component m q = component m p := by
  have hqfg : q ∈ fgSet m := component_subset_fg m p hp hq
  have hpq : Relation.ReflTransGen (step m) p q :=
    (mem_component_iff m p hp q).mp hq
  ext r
  rw [mem_component_iff m q hqfg r, mem_component_iff m p hp r]
  constructor
  · exact fun h => hpq.trans h
  · exact fun h => (reach_symm m hpq).trans h

theorem mem_fgList_iff (m : Mask) (q : ℤ × ℤ) :
    q ∈ fgList m ↔ q ∈ fgSet m := by
  constructor
  · intro h
    rw [fgList, List.mem_flatMap] at h
    obtain ⟨y, hy, hq⟩ := h
    rw [List.mem_filterMap] at hq
    obtain ⟨x, hx, hfx⟩ := hq
    rw [List.mem_range] at hy hx
    by_cases hfg : m.fg (y : ℤ) (x : ℤ) = true
    · rw [if_pos hfg] at hfx
      obtain rfl := Option.some.inj hfx
      rw [fgSet, Finset.mem_image]
      exact ⟨(y, x), by
        rw [Finset.mem_filter, Finset.mem_product, Finset.mem_range,
          Finset.mem_range]
        exact ⟨⟨hy, hx⟩, hfg⟩, rfl⟩
    · rw [if_neg hfg] at hfx
      exact absurd hfx (by simp)
  · intro h
    rw [fgSet, Finset.mem_image] at h
    obtain ⟨a, ha, rfl⟩ := h
    rw [Finset.mem_filter, Finset.mem_product, Finset.mem_range,
      Finset.mem_range] at ha
    obtain ⟨⟨hy, hx⟩, hfg⟩ := ha
    rw [fgList, List.mem_flatMap]
    refine ⟨a.1, List.mem_range.mpr hy, ?_⟩
    rw [List.mem_filterMap]
    exact ⟨a.2, List.mem_range.mpr hx, by rw [if_pos hfg]⟩

theorem lexLe_refl (p : ℤ × ℤ) : lexLe p p := Or.inr ⟨rfl, le_refl _⟩

theorem lexLe_antisymm {p q : ℤ × ℤ} (h1 : lexLe p q) (h2 : lexLe q p) :
    p = q := by
  rcases h1 with h1 | ⟨h1a, h1b⟩ <;> rcases h2 with h2 | ⟨h2a, h2b⟩
  · omega
  · omega
  · omega
  · exact Prod.ext h1a (le_antisymm h1b h2b)

theorem lexLe_total (p q : ℤ × ℤ) : lexLe p q ∨ lexLe q p := by
  unfold lexLe
  omega

theorem exists_lexMin (S : Finset (ℤ × ℤ)) (hS : S.Nonempty) :
    ∃ c ∈ S, ∀ q ∈ S, lexLe c q := by
  classical
  induction S using Finset.induction_on with
  | empty => exact absurd hS (by simp)
  | @insert a s hnotmem ih =>
    rcases s.eq_empty_or_nonempty with rfl | hs
    · exact ⟨a, Finset.mem_insert_self a _, fun q hq => by
        rw [Finset.mem_insert] at hq
        rcases hq with rfl | hq
        · exact lexLe_refl q
        · exact absurd hq (by simp)⟩
    · obtain ⟨c, hcS, hcmin⟩ := ih hs
      rcases lexLe_total a c with hac | hca
      · refine ⟨a, Finset.mem_insert_self a _, fun q hq => ?_⟩
        rw [Finset.mem_insert] at hq
        rcases hq with rfl | hq
        · exact lexLe_refl q
        · rcases hac with h | ⟨h1, h2⟩
          · rcases hcmin q hq with h' | ⟨h1', h2'⟩
            · exact Or.inl (by omega)
            · exact Or.inl (by omega)
          · rcases hcmin q hq with h' | ⟨h1', h2'⟩
            · exact Or.inl (by omega)
            · exact Or.inr ⟨by omega, by omega⟩
      · refine ⟨c, Finset.mem_insert_of_mem hcS, fun q hq => ?_⟩
        rw [Finset.mem_insert] at hq
        rcases hq with rfl | hq
        · exact hca
        · exact hcmin q hq

theorem foldl_min_le_init (g : ℤ × ℤ → ℤ) (l : List (ℤ × ℤ)) (a : ℤ) :
    l.foldl (fun b q => min b (g q)) a ≤ a := by
  induction l generalizing a with
  | nil => exact le_refl a
  | cons c cs ih =>
    rw [List.foldl_cons]
    exact (ih (min a (g c))).trans (min_le_left a (g c))

theorem foldl_min_le_mem (g : ℤ × ℤ → ℤ) :
    ∀ (l : List (ℤ × ℤ)) (a : ℤ) (q : ℤ × ℤ), q ∈ l →
      l.foldl (fun b r => min b (g r)) a ≤ g q := by
  intro l
  induction l with
  | nil => intro a q hq; exact absurd hq (by simp)
  | cons c cs ih =>
    intro a q hq
    rw [List.foldl_cons]
    rcases List.mem_cons.mp hq with rfl | hq
    · exact (foldl_min_le_init g cs _).trans (min_le_right a (g q))
    · exact ih _ q hq

theorem init_le_foldl_max (g : ℤ × ℤ → ℤ) (l : List (ℤ × ℤ)) (a : ℤ) :
    a ≤ l.foldl (fun b q => max b (g q)) a := by
  induction l generalizing a with
  | nil => exact le_refl a
  | cons c cs ih =>
    rw [List.foldl_cons]
    exact (le_max_left a (g c)).trans (ih (max a (g c)))

theorem mem_le_foldl_max (g : ℤ × ℤ → ℤ) :
    ∀ (l : List (ℤ × ℤ)) (a : ℤ) (q : ℤ × ℤ), q ∈ l →
      g q ≤ l.foldl (fun b r => max b (g r)) a := by
  intro l
  induction l with
  | nil => intro a q hq; exact absurd hq (by simp)
  | cons c cs ih =>
    intro a q hq
    rw [List.foldl_cons]
    rcases List.mem_cons.mp hq with rfl | hq
    · exact (le_max_right a (g q)).trans (init_le_foldl_max g cs _)
    · exact ih _ q hq

theorem foldl_minCol_le (pts : List (ℤ × ℤ)) (a : ℤ) (q : ℤ × ℤ)
    (hq : q ∈ pts) : pts.foldl (fun b r => min b r.2) a ≤ q.2 := by
  simpa using foldl_min_le_mem (fun r => r.2) pts a q hq

theorem le_foldl_maxCol (pts : List (ℤ × ℤ)) (a : ℤ) (q : ℤ × ℤ)
    (hq : q ∈ pts) : q.2 ≤ pts.foldl (fun b r => max b r.2) a := by
  simpa using mem_le_foldl_max (fun r => r.2) pts a q hq

theorem foldl_minRow_le (pts : List (ℤ × ℤ)) (a : ℤ) (q : ℤ × ℤ)
    (hq : q ∈ pts) : pts.foldl (fun b r => min b r.1) a ≤ q.1 := by
  simpa using foldl_min_le_mem (fun r => r.1) pts a q hq

theorem le_foldl_maxRow (pts : List (ℤ × ℤ)) (a : ℤ) (q : ℤ × ℤ)
    (hq : q ∈ pts) : q.1 ≤ pts.foldl (fun b r => max b r.1) a := by
  simpa using mem_le_foldl_max (fun r => r.1) pts a q hq

theorem rectOf_contains (p : ℤ × ℤ) (pts : List (ℤ × ℤ)) (q : ℤ × ℤ)
    (hq : q ∈ pts) : rectContains (rectOf p pts) q := by
  have h1 := foldl_minCol_le pts p.2 q hq
  have h2 := le_foldl_maxCol pts p.2 q hq
  have h3 := foldl_minRow_le pts p.1 q hq
  have h4 := le_foldl_maxRow pts p.1 q hq
  rw [rectContains, rectOf]
  dsimp only
  exact ⟨h1, by omega, h3, by omega⟩

theorem mem_extract_iff (m : Mask) (r : Region) :
    r ∈ extract m ↔ ∃ p, p ∈ fgList m ∧ canonical m p ∧
      r = rectOf p ((fgList m).filter fun q => decide (q ∈ component m p)) := by
  rw [extract, List.mem_filterMap]
  constructor
  · rintro ⟨p, hp, hf⟩
    by_cases hc : canonical m p
    · rw [if_pos hc] at hf
      exact ⟨p, hp, hc, (Option.some.inj hf).symm⟩
    · rw [if_neg hc] at hf
      exact absurd hf (by simp)
  · rintro ⟨p, hp, hc, rfl⟩
    exact ⟨p, hp, by rw [if_pos hc]⟩

theorem mem_region_points (m : Mask) (p q : ℤ × ℤ) (hp : p ∈ fgSet m) :
    (q ∈ (fgList m).filter fun q' => decide (q' ∈ component m p))
      ↔ q ∈ component m p := by
  rw [List.mem_filter]
  constructor
  · rintro ⟨-, hd⟩
    exact of_decide_eq_true hd
  · intro h
    exact ⟨(mem_fgList_iff m q).mpr (component_subset_fg m p hp h),
      decide_eq_true h⟩

/-- C8: `RegionExtractor.extract` returns exactly one Region per
8-connected foreground component — every foreground pixel lies in the
point set of exactly one returned Region, a Region's point set is
exactly the 8-connected component of any of its points (so background
pixels, in particular interior holes, never yield a Region of their
own) — and every Region's axis-aligned bounding rectangle `(x, y, w, h)`
contains every point of its originating point set. -/
theorem extract_one_region_per_component (m : Mask) :
    (∀ r ∈ extract m, ∀ q ∈ r.points, rectContains r q)
    ∧ (∀ p, p ∈ fgSet m → ∃! r, r ∈ extract m ∧ p ∈ r.points)
    ∧ (∀ r ∈ extract m, ∀ p0 ∈ r.points, ∀ q,
        (q ∈ r.points ↔ q ∈ fgSet m ∧ Relation.ReflTransGen (step m) p0 q)) := by
  refine ⟨?_, ?_, ?_⟩
  · intro r hr q hq
    obtain ⟨p, hpl, hpc, rfl⟩ := (mem_extract_iff m r).mp hr
    exact rectOf_contains p _ q hq
  · intro p hpfg
    obtain ⟨c, hcC, hcmin⟩ :=
      exists_lexMin (component m p) ⟨p, mem_self_component m p⟩
    have hcfg : c ∈ fgSet m := component_subset_fg m p hpfg hcC
    have hcomp_eq : component m c = component m p :=
      component_eq_of_mem m p c hpfg hcC
    have hccanon : canonical m c := by
      intro q hq
      rw [hcomp_eq] at hq
      exact hcmin q hq
    refine ⟨rectOf c ((fgList m).filter fun q => decide (q ∈ component m c)),
      ⟨?_, ?_⟩, ?_⟩
    · rw [mem_extract_iff]
      exact ⟨c, (mem_fgList_iff m c).mpr hcfg, hccanon, rfl⟩
    · show p ∈ (fgList m).filter fun q => decide (q ∈ component m c)
      rw [mem_region_points m c p hcfg, hcomp_eq]
      exact mem_self_component m p
    · rintro r' ⟨hr', hpr'⟩
      obtain ⟨p', hp'l, hp'c, rfl⟩ := (mem_extract_iff m r').mp hr'
      have hp'fg : p' ∈ fgSet m := (mem_fgList_iff m p').mp hp'l
      have hppts : p ∈ component m p' :=
        (mem_region_points m p' p hp'fg).mp hpr'
      have hcompp : component m p = component m p' :=
        component_eq_of_mem m p' p hp'fg hppts
      have hc_in : c ∈ component m p' := by
        rw [← hcompp]
        exact hcC
      have hp'_in : p' ∈ component m c := by
        rw [hcomp_eq, hcompp]
        exact mem_self_component m p'
      have hcp' : p' = c := lexLe_antisymm (hp'c c hc_in) (hccanon p' hp'_in)
      subst hcp'
      rfl
  · intro r hr p0 hp0 q
    obtain ⟨c, hcl, hcc, rfl⟩ := (mem_extract_iff m r).mp hr
    have hcfg : c ∈ fgSet m := (mem_fgList_iff m c).mp hcl
    have hp0c : p0 ∈ component m c := (mem_region_points m c p0 hcfg).mp hp0
    have hreach_cp0 : Relation.ReflTransGen (step m) c p0 :=
      (mem_component_iff m c hcfg p0).mp hp0c
    constructor
    · intro hq
      have hqc : q ∈ component m c := (mem_region_points m c q hcfg).mp hq
      exact ⟨component_subset_fg m c hcfg hqc,
        (reach_symm m hreach_cp0).trans ((mem_component_iff m c hcfg q).mp hqc)⟩
    · rintro ⟨hqfg, hreach⟩
      show q ∈ (fgList m).filter fun q' => decide (q' ∈ component m c)
      rw [mem_region_points m c q hcfg, mem_component_iff m c hcfg q]
      exact hreach_cp0.trans hreach

/-- A 1×2 demonstration mask whose two pixels are both foreground. -/
def witMask : Mask := ⟨2, 1, fun y x => decide (y = 0 ∧ (x = 0 ∨ x = 1))⟩

theorem extract_one_region_per_component_witness :
    rectContains (rectOf ((0 : ℤ), (0 : ℤ))
        ((fgList witMask).filter fun q => decide (q ∈ component witMask (0, 0))))
      ((0 : ℤ), (1 : ℤ))
    ∧ ∃! r, r ∈ extract witMask ∧ ((0 : ℤ), (0 : ℤ)) ∈ r.points :=
  ⟨(extract_one_region_per_component witMask).1
      (rectOf ((0 : ℤ), (0 : ℤ))
        ((fgList witMask).filter fun q => decide (q ∈ component witMask (0, 0))))
      (by decide) ((0 : ℤ), (1 : ℤ)) (by decide),
   (extract_one_region_per_component witMask).2.1 ((0 : ℤ), (0 : ℤ)) (by decide)⟩

/-- The `while True` loop of MotionDetection.py, embedded over a list of
read results (`some f` = `ret` true with frame `f`; `none` = `ret`
false) and a list of per-iteration cancellation answers (`cv2.waitKey`
comparing to `'q'`).  Each iteration: read and break on failure, run the
background subtractor, the morphological opening and the contour
extraction, deliver `(frame, regions)` to the sink, then poll
cancellation once. -/
def runLoop (α : ℚ) : BGState → List (Option Frame) → List Bool →
    List (Frame × List Region)
  | _, [], _ => []
  | _, none :: _, _ => []
  | s, some f :: rest, cancels =>
    let s' := (bgApply α s f).1
    let fg1 := (bgApply α s f).2
    let fg2 := noiseFilter fg1
    let contours := extract fg2
    (f, contours) ::
      (if cancels.headD false then [] else runLoop α s' rest cancels.tail)

/-- The spec's data flow, written as plain sequential composition: for
each frame in order, BackgroundModel.apply, then NoiseFilter.apply, then
RegionExtractor.extract, then delivery of `(frame, regions)`. -/
def pipelineOutputs (α : ℚ) : BGState → List Frame → List (Frame × List Region)
  | _, [] => []
  | s, f :: fs =>
    (f, extract (noiseFilter (bgApply α s f).2)) ::
      pipelineOutputs α (bgApply α s f).1 fs

/-- What actually happened inside the capture device on one `read()`
call.  `cv2.VideoCapture.read` returns `ret = False` both at a clean end
of stream and on an I/O/decode failure; the returned flag is all the
loop can see. -/
inductive ReadOutcome where
  | frame (f : Frame)
  | endOfStream
  | ioError

/-- The `(ret, frame)` view the loop gets of a read outcome. -/
def readRet : ReadOutcome → Option Frame
  | .frame f => some f
  | .endOfStream => none
  | .ioError => none

/-- The loop run against a capture device with the given per-call
outcomes. -/
def runDevice (α : ℚ) (s : BGState) (outcomes : List ReadOutcome)
    (cancels : List Bool) : List (Frame × List Region) :=
  runLoop α s (outcomes.map readRet) cancels

/-- The operations of one loop iteration of MotionDetection.py, in
source order. -/
inductive Op where
  | readFrame
  | bgSubApply
  | morphologyEx
  | findContours
  | drawRect
  | imshow
  | waitKeyCheck
  deriving DecidableEq, Repr

/-- The per-iteration operation sequence, read off the loop body line by
line: `video.read()`, `background_subtractor.apply(frame)`,
`cv2.morphologyEx`, `cv2.findContours`, the `cv2.rectangle` drawing
loop, `cv2.imshow`, and the `cv2.waitKey` quit check. -/
def iterationOps : List Op :=
  [.readFrame, .bgSubApply, .morphologyEx, .findContours,
   .drawRect, .imshow, .waitKeyCheck]

/-- Which operations write pixels of the current frame.  Only
`cv2.rectangle` draws on the frame in place; `apply` reads the frame but
writes the separate mask and model, `morphologyEx`/`findContours`
operate on the mask, and `imshow`/`waitKey` write nothing. -/
def writesFrame : Op → Bool
  | .drawRect => true
  | _ => false

/-- The operation that hands the current frame (with its drawn regions)
to the sink. -/
def handsOff : Op → Bool
  | .imshow => true
  | _ => false

/-- The delivery stage of an iteration: drawing the detected rectangles
and displaying the frame. -/
def deliveryOp : Op → Bool
  | .drawRect => true
  | .imshow => true
  | _ => false

theorem headD_eq_getD_zero (l : List Bool) : l.headD false = l.getD 0 false := by
  cases l <;> rfl

theorem tail_getD (l : List Bool) (i : ℕ) :
    l.tail.getD i false = l.getD (i + 1) false := by
  cases l <;> rfl

theorem runLoop_cons (α : ℚ) (s : BGState) (f : Frame)
    (rest : List (Option Frame)) (cancels : List Bool) :
    runLoop α s (some f :: rest) cancels
      = (f, extract (noiseFilter (bgApply α s f).2)) ::
          (if cancels.headD false then []
           else runLoop α (bgApply α s f).1 rest cancels.tail) := rfl

theorem runLoop_none (α : ℚ) (s : BGState) (rest : List (Option Frame))
    (cancels : List Bool) : runLoop α s (none :: rest) cancels = [] := rfl

theorem pipelineOutputs_cons (α : ℚ) (s : BGState) (f : Frame)
    (fs : List Frame) :
    pipelineOutputs α s (f :: fs)
      = (f, extract (noiseFilter (bgApply α s f).2)) ::
          pipelineOutputs α (bgApply α s f).1 fs := rfl

/-- C1: the loop delivers, one frame per iteration and for a prefix of
the stream (all of it unless cancelled), exactly the sequential
composition BackgroundModel.apply → NoiseFilter → RegionExtractor →
sink, in that order. -/
theorem runLoop_is_pipeline (α : ℚ) (s : BGState) (frames : List Frame)
    (cancels : List Bool) :
    ∃ n, n ≤ frames.length ∧
      runLoop α s (frames.map some ++ [none]) cancels
        = pipelineOutputs α s (frames.take n) := by
  induction frames generalizing s cancels with
  | nil => exact ⟨0, le_refl 0, rfl⟩
  | cons f fs ih =>
    rw [List.map_cons, List.cons_append, runLoop_cons]
    by_cases hc : cancels.headD false = true
    · refine ⟨1, by simp, ?_⟩
      rw [if_pos hc]
      rfl
    · obtain ⟨n, hn, he⟩ := ih (bgApply α s f).1 cancels.tail
      refine ⟨n + 1, by simpa using Nat.succ_le_succ hn, ?_⟩
      rw [if_neg hc, he, List.take_succ_cons, pipelineOutputs_cons]

/-- C7: cancellation (and end-of-stream) never stops the loop mid-frame.
If the quit key is answered for the first time on iteration `N`
(0-indexed), the loop output is the fully processed and delivered prefix
of `N + 1` frames; if it is never answered, every frame of the stream is
fully processed and delivered before the loop stops at end-of-stream. -/
theorem cancellation_never_mid_frame :
    (∀ (α : ℚ) (s : BGState) (frames : List Frame) (cancels : List Bool)
        (N : ℕ), N < frames.length →
        (∀ i, i < N → cancels.getD i false = false) →
        cancels.getD N false = true →
        runLoop α s (frames.map some ++ [none]) cancels
          = pipelineOutputs α s (frames.take (N + 1)))
    ∧ (∀ (α : ℚ) (s : BGState) (frames : List Frame) (cancels : List Bool),
        (∀ i, cancels.getD i false = false) →
        runLoop α s (frames.map some ++ [none]) cancels
          = pipelineOutputs α s frames) := by
  constructor
  · intro α s frames
    induction frames generalizing s with
    | nil => intro cancels N hN _ _; simp at hN
    | cons f fs ih =>
      intro cancels N hN hbefore hcancel
      rw [List.map_cons, List.cons_append, runLoop_cons]
      cases N with
      | zero =>
        have hc : cancels.headD false = true := by
          rw [headD_eq_getD_zero]; exact hcancel
        rw [if_pos hc]
        rfl
      | succ n =>
        have hc : cancels.headD false = false := by
          rw [headD_eq_getD_zero]
          exact hbefore 0 (Nat.succ_pos n)
        rw [if_neg (by rw [hc]; exact Bool.false_ne_true)]
        have hrec := ih (bgApply α s f).1 cancels.tail n (by simpa using hN)
          (fun i hi => by rw [tail_getD]; exact hbefore (i + 1) (by omega))
          (by rw [tail_getD]; exact hcancel)
        rw [hrec, List.take_succ_cons, pipelineOutputs_cons]
  · intro α s frames
    induction frames generalizing s with
    | nil => intro cancels _; rfl
    | cons f fs ih =>
      intro cancels hnone
      have hc : cancels.headD false = false := by
        rw [headD_eq_getD_zero]; exact hnone 0
      rw [List.map_cons, List.cons_append, runLoop_cons,
        if_neg (by rw [hc]; exact Bool.false_ne_true)]
      rw [ih (bgApply α s f).1 cancels.tail
        (fun i => by rw [tail_getD]; exact hnone (i + 1))]
      rfl

theorem cancellation_never_mid_frame_witness :
    (1 : ℕ) < 3 ∧
      runLoop (1 / 2) demoState
          ([demoFrame, demoFrame, demoFrame].map some ++ [none])
          [false, true]
        = pipelineOutputs (1 / 2) demoState
            ([demoFrame, demoFrame, demoFrame].take 2) :=
  ⟨by norm_num,
   cancellation_never_mid_frame.1 (1 / 2) demoState
     [demoFrame, demoFrame, demoFrame] [false, true] 1 (by norm_num)
     (fun i hi => by
       have : i = 0 := by omega
       subst this; rfl)
     rfl⟩

/-- C6 counterexample: at an I/O failure of the capture device the loop
is observationally identical to a clean end-of-stream — `video.read()`
returns `ret = False` in both cases and `if not ret: break` terminates
the run silently; no ReadError distinct from end-of-stream is surfaced
or propagated. -/
theorem io_failure_indistinguishable_ce :
    runDevice (1 / 2) demoState [.ioError] []
        = runDevice (1 / 2) demoState [.endOfStream] []
      ∧ runDevice (1 / 2) demoState [.ioError] [] = [] :=
  ⟨rfl, rfl⟩

theorem runLoop_stops_at_first_none (α : ℚ) (s : BGState) (pre : List Frame)
    (rest rest' : List (Option Frame)) (cancels : List Bool) :
    runLoop α s (pre.map some ++ none :: rest) cancels
      = runLoop α s (pre.map some ++ none :: rest') cancels := by
  induction pre generalizing s cancels with
  | nil => rfl
  | cons f fs ih =>
    rw [List.map_cons, List.cons_append, List.cons_append, runLoop_cons,
      runLoop_cons]
    by_cases hc : cancels.headD false = true
    · rw [if_pos hc, if_pos hc]
    · rw [if_neg hc, if_neg hc, ih (bgApply α s f).1 cancels.tail]

/-- C6 amended: when the frame source fails to supply a frame — whether
from an I/O failure or a clean end-of-stream — the loop terminates
silently at that point, with identical observable behaviour in the two
cases; no error value is surfaced to the caller (and there is no
internal retry: the run simply ends). -/
theorem read_failure_silent (α : ℚ) (s : BGState) (pre : List Frame)
    (rest rest' : List ReadOutcome) (cancels : List Bool) :
    runDevice α s (pre.map .frame ++ .ioError :: rest) cancels
      = runDevice α s (pre.map .frame ++ .endOfStream :: rest') cancels := by
  unfold runDevice
  have hmap : ∀ (l : List Frame), (l.map ReadOutcome.frame).map readRet
      = l.map some := by
    intro l
    rw [List.map_map]
    rfl
  rw [List.map_append, List.map_append, hmap, List.map_cons, List.map_cons]
  exact runLoop_stops_at_first_none α s pre _ _ cancels

/-- C5: in the per-iteration effect trace of the loop, no operation
after the hand-off to the sink (`cv2.imshow`) writes any pixel of the
frame, and the only operation that writes the frame at all is the
delivery-stage rectangle drawing. -/
theorem frame_not_written_after_handoff :
    (∀ i j : Fin iterationOps.length, i < j →
        handsOff (iterationOps.get i) = true →
        writesFrame (iterationOps.get j) = false)
    ∧ (∀ op ∈ iterationOps, writesFrame op = true → deliveryOp op = true) := by
  decide

theorem frame_not_written_after_handoff_witness :
    writesFrame (iterationOps.get ⟨6, by norm_num [iterationOps]⟩) = false :=
  frame_not_written_after_handoff.1
    ⟨5, by norm_num [iterationOps]⟩ ⟨6, by norm_num [iterationOps]⟩
    (by norm_num) (by decide)

end Motion
